import Mathlib

/-!
Shallow embedding of the manual backpropagation engine from the lecture
notebook: a Dense (affine) layer, ReLU and Sigmoid activations, and the
forward/backward driver loops.  Numpy 2-D arrays are embedded as lists of
rows over an ordered field (ℚ for the exact arithmetic claims, ℝ where the
exponential function is involved); numpy's elementwise operations become
`List.zipWith`/`List.map` liftings.  Mutation of a Python object becomes
explicit state passing: each method returns the updated layer together with
its result, and a method that would raise (reading a `None` field) returns
`none`.
-/

namespace BackpropSpec

/-- A batch array: a list of rows. -/
abbrev Mat (α : Type) : Type := List (List α)

variable {α : Type}

/-- Number of rows (numpy `shape[0]`). -/
def rowsOf (A : Mat α) : Nat := A.length

/-- Number of columns, read off the first row (numpy `shape[1]`). -/
def colsOf (A : Mat α) : Nat := (A.headD []).length

/-- Entry access with a default of zero out of bounds. -/
def entry [Zero α] (A : Mat α) (i j : Nat) : α := (A.getD i []).getD j 0

/-- The list of rows `A` represents an `r × c` array. -/
def IsMat (A : Mat α) (r c : Nat) : Prop :=
  A.length = r ∧ ∀ row ∈ A, row.length = c

instance (A : Mat α) (r c : Nat) : Decidable (IsMat A r c) := by
  unfold IsMat; exact inferInstance

/-- Dot product of two rows. -/
def dotL [Mul α] [Add α] [Zero α] (u v : List α) : α :=
  (List.zipWith (· * ·) u v).sum

/-- Transpose (numpy `.T`) of a rectangular array. -/
def transposeM [Zero α] (A : Mat α) : Mat α :=
  (List.range (colsOf A)).map (fun j => A.map (fun row => row.getD j 0))

/-- Matrix product (numpy `.dot`). -/
def matMul [Mul α] [Add α] [Zero α] (A B : Mat α) : Mat α :=
  A.map (fun row => (transposeM B).map (fun col => dotL row col))

/-- Broadcast addition of a bias row to every row (numpy `+` broadcasting). -/
def addBias [Add α] (A : Mat α) (b : List α) : Mat α :=
  A.map (fun row => List.zipWith (· + ·) row b)

/-- Column sums with the row dimension kept (numpy `sum(axis=0, keepdims=True)`). -/
def sumRows [Add α] [Zero α] (A : Mat α) : Mat α :=
  [(List.range (colsOf A)).map (fun j => (A.map (fun row => row.getD j 0)).sum)]

/-- Elementwise map over an array. -/
def emap (f : α → α) (A : Mat α) : Mat α := A.map (List.map f)

/-- Elementwise combination of two same-shape arrays. -/
def ezip (f : α → α → α) (A B : Mat α) : Mat α :=
  List.zipWith (List.zipWith f) A B

/-- Elementwise product (numpy `*`). -/
def emul [Mul α] (A B : Mat α) : Mat α := ezip (· * ·) A B

/-- Elementwise sum (numpy `+` on same-shape arrays). -/
def eadd [Add α] (A B : Mat α) : Mat α := ezip (· + ·) A B

/-- Elementwise quotient (numpy `/`). -/
def ediv [Div α] (A B : Mat α) : Mat α := ezip (· / ·) A B

/-- The Dense layer of the notebook (`class LinearLayer`): weights, bias and
the transient fields `input`, `grad_weights`, `grad_bias`, each `None` until
first written. -/
structure LinearLayer (α : Type) where
  weights : Mat α
  bias : List α
  input : Option (Mat α)
  grad_weights : Option (Mat α)
  grad_bias : Option (Mat α)

/-- Dense `forward_pass(self, x, training=True)`: stores `x` in `input` and
returns `x.dot(self.weights) + self.bias`. -/
def LinearLayer.forward_pass [Mul α] [Add α] [Zero α] (l : LinearLayer α)
    (x : Mat α) (training : Bool) : LinearLayer α × Mat α :=
  (⟨l.weights, l.bias, some x, l.grad_weights, l.grad_bias⟩,
   addBias (matMul x l.weights) l.bias)

/-- Dense `backward_pass(self, cum_grad)`: takes a copy of the current
weights, sets `grad_weights = input.T.dot(cum_grad)` and
`grad_bias = sum(cum_grad, axis=0, keepdims=True)`, and returns
`cum_grad.dot(weights.T)`.  Reading the `None` input (no preceding forward
call) would raise in Python, embedded as `none`. -/
def LinearLayer.backward_pass [Mul α] [Add α] [Zero α] (l : LinearLayer α)
    (cum_grad : Mat α) : Option (LinearLayer α × Mat α) :=
  match l.input with
  | none => none
  | some x =>
      let weights := l.weights
      some (⟨l.weights, l.bias, l.input,
             some (matMul (transposeM x) cum_grad),
             some (sumRows cum_grad)⟩,
            matMul cum_grad (transposeM weights))

/-- Overwriting the `weights` field of a Dense layer, as the notebook caller
does (`l0.weights = ...`). -/
def LinearLayer.setWeights (l : LinearLayer α) (w : Mat α) : LinearLayer α :=
  ⟨w, l.bias, l.input, l.grad_weights, l.grad_bias⟩

/-- The ReLU activation of the notebook (`class ReLU`): transient stored
input and gradient, both `None` until written. -/
structure ReLU (α : Type) where
  input : Option (Mat α)
  grad : Option (Mat α)

/-- Elementwise boolean mask `(x > 0)` cast to a number, as numpy does when
multiplying a boolean array (`.astype(int)` on the gradient path). -/
def reluMask [LinearOrderedField α] (x : Mat α) : Mat α :=
  emap (fun t => if 0 < t then 1 else 0) x

/-- ReLU `gradient(self, x)`: `(x > 0).astype(int)`. -/
def ReLU.gradient [LinearOrderedField α] (x : Mat α) : Mat α :=
  reluMask x

/-- ReLU `forward_pass(self, x)`: stores `x` and returns `(x > 0) * x`. -/
def ReLU.forward_pass [LinearOrderedField α] (l : ReLU α) (x : Mat α) : ReLU α × Mat α :=
  (⟨some x, l.grad⟩, emul (reluMask x) x)

/-- ReLU `backward_pass(self, cum_grad)`: stores `self.gradient(self.input)`
in `grad` and returns `cum_grad * self.grad`. -/
def ReLU.backward_pass [LinearOrderedField α] (l : ReLU α) (cum_grad : Mat α) : Option (ReLU α × Mat α) :=
  match l.input with
  | none => none
  | some x =>
      let g := ReLU.gradient x
      some (⟨l.input, some g⟩, emul cum_grad g)

/-- The Sigmoid activation of the notebook (`class Sigmoid`): transient
stored input and gradient.  The ambient exponential (`np.exp`) is passed in
explicitly as `e`. -/
structure Sigmoid (α : Type) where
  input : Option (Mat α)
  grad : Option (Mat α)

/-- Scalar version of `Sigmoid._sigmoid`: `1 / (1 + exp(-x))`. -/
def sigmoidFn [LinearOrderedField α] (e : α → α) (t : α) : α :=
  1 / (1 + e (-t))

/-- Sigmoid `_sigmoid(self, x)` on an array: `1 / (1 + np.exp(-x))`. -/
def Sigmoid.sigmoidM [LinearOrderedField α] (e : α → α) (x : Mat α) :
    Mat α :=
  emap (sigmoidFn e) x

/-- Sigmoid `gradient(self, x)`: `self._sigmoid(x) * (1 - self._sigmoid(x))`. -/
def Sigmoid.gradient [LinearOrderedField α] (e : α → α) (x : Mat α) : Mat α :=
  emul (Sigmoid.sigmoidM e x) (emap (fun t => 1 - t) (Sigmoid.sigmoidM e x))

/-- Sigmoid `forward_pass(self, x)`: stores `x` and returns `self._sigmoid(x)`. -/
def Sigmoid.forward_pass [LinearOrderedField α] (e : α → α) (s : Sigmoid α) (x : Mat α) : Sigmoid α × Mat α :=
  (⟨some x, s.grad⟩, Sigmoid.sigmoidM e x)

/-- Sigmoid `backward_pass(self, cum_grad)`: stores
`self.gradient(self.input)` in `grad` and returns `cum_grad * self.grad`. -/
def Sigmoid.backward_pass [LinearOrderedField α] (e : α → α) (s : Sigmoid α) (cum_grad : Mat α) : Option (Sigmoid α × Mat α) :=
  match s.input with
  | none => none
  | some x =>
      let g := Sigmoid.gradient e x
      some (⟨s.input, some g⟩, emul cum_grad g)

/-- A network layer: the notebook's duck-typed `layers` list holds Dense,
ReLU and Sigmoid objects. -/
inductive Layer (α : Type) where
  | dense : LinearLayer α → Layer α
  | relu : ReLU α → Layer α
  | sigm : Sigmoid α → Layer α

variable {F : Type} [LinearOrderedField F]

/-- Dispatch of `layer.forward_pass(out)` on a duck-typed layer (the Dense
layer's `training` argument keeps its default `True`). -/
def layerForward (e : F → F) : Layer F → Mat F → Layer F × Mat F
  | Layer.dense l, x =>
      let p := l.forward_pass x true
      (Layer.dense p.1, p.2)
  | Layer.relu l, x =>
      let p := l.forward_pass x
      (Layer.relu p.1, p.2)
  | Layer.sigm s, x =>
      let p := Sigmoid.forward_pass e s x
      (Layer.sigm p.1, p.2)

/-- Dispatch of `layer.backward_pass(grad)` on a duck-typed layer. -/
def layerBackward (e : F → F) : Layer F → Mat F → Option (Layer F × Mat F)
  | Layer.dense l, g => (l.backward_pass g).map (fun p => (Layer.dense p.1, p.2))
  | Layer.relu l, g => (l.backward_pass g).map (fun p => (Layer.relu p.1, p.2))
  | Layer.sigm s, g =>
      (Sigmoid.backward_pass e s g).map (fun p => (Layer.sigm p.1, p.2))

/-- The forward driver loop `for layer in layers: out = layer.forward_pass(out)`:
each layer's output feeds the next layer; the updated layer objects are
returned together with the final output. -/
def netForward (e : F → F) : List (Layer F) → Mat F → List (Layer F) × Mat F
  | [], x => ([], x)
  | l :: ls, x =>
      let p := layerForward e l x
      let q := netForward e ls p.2
      (p.1 :: q.1, q.2)

/-- The backward driver loop `for layer in layers[::-1]: grad = layer.backward_pass(grad)`:
the layers are visited in reverse order, each layer's returned gradient
feeding the preceding layer; the updated layers are returned in their
original order together with the final propagated gradient. -/
def netBackward (e : F → F) : List (Layer F) → Mat F → Option (List (Layer F) × Mat F)
  | [], g => some ([], g)
  | l :: ls, g =>
      (netBackward e ls g).bind fun q =>
        (layerBackward e l q.2).map fun p => (p.1 :: q.1, p.2)

/-- The binary-cross-entropy seed gradient of the notebook:
`grad = -(y / probs) + (1 - y) / (1 - probs)` followed by
`grad /= grad.shape[0]`. -/
def seedGrad [LinearOrderedField α] (y probs : Mat α) : Mat α :=
  let grad := eadd (emap Neg.neg (ediv y probs))
    (ediv (emap (fun t => 1 - t) y) (emap (fun t => 1 - t) probs))
  emap (fun t => t / (rowsOf grad : α)) grad

/-! Shape and entry lemmas for the array embedding. -/

theorem colsOf_eq {A : Mat α} {r c : Nat} (h : IsMat A r c) (hr : 0 < r) :
    colsOf A = c := by
  obtain ⟨h1, h2⟩ := h
  cases A with
  | nil => simp at h1; omega
  | cons row rest => exact h2 row (by simp)

theorem isMat_transposeM [Zero α] {A : Mat α} {r c : Nat} (h : IsMat A r c)
    (hr : 0 < r) : IsMat (transposeM A) c r := by
  refine ⟨?_, ?_⟩
  · simp [transposeM, colsOf_eq h hr]
  · intro row hrow
    simp only [transposeM, List.mem_map] at hrow
    obtain ⟨j, _, hj⟩ := hrow
    simp [← hj, h.1]

theorem isMat_matMul [Mul α] [Add α] [Zero α] {A B : Mat α} {r k c : Nat}
    (hA : IsMat A r k) (hB : IsMat B k c) (hk : 0 < k) :
    IsMat (matMul A B) r c := by
  refine ⟨by simp [matMul, hA.1], ?_⟩
  intro row hrow
  simp only [matMul, List.mem_map] at hrow
  obtain ⟨a, _, ha⟩ := hrow
  simp [← ha, transposeM, colsOf_eq hB hk]

theorem isMat_sumRows [Add α] [Zero α] {A : Mat α} {r c : Nat}
    (h : IsMat A r c) (hr : 0 < r) : IsMat (sumRows A) 1 c := by
  refine ⟨by simp [sumRows], ?_⟩
  intro row hrow
  simp only [sumRows, List.mem_singleton] at hrow
  simp [hrow, colsOf_eq h hr]

theorem isMat_emap {f : α → α} {A : Mat α} {r c : Nat} (h : IsMat A r c) :
    IsMat (emap f A) r c := by
  refine ⟨by simp [emap, h.1], ?_⟩
  intro row hrow
  simp only [emap, List.mem_map] at hrow
  obtain ⟨a, ha, haeq⟩ := hrow
  simp [← haeq, h.2 a ha]

theorem isMat_ezip {f : α → α → α} {A B : Mat α} {r c : Nat}
    (hA : IsMat A r c) (hB : IsMat B r c) : IsMat (ezip f A B) r c := by
  refine ⟨by simp [ezip, List.length_zipWith, hA.1, hB.1], ?_⟩
  intro row hrow
  obtain ⟨i, hi, hEq⟩ := List.mem_iff_getElem.mp hrow
  have hi' : i < A.length ∧ i < B.length := by
    simp [ezip, List.length_zipWith] at hi; omega
  rw [← hEq]
  simp only [ezip, List.getElem_zipWith, List.length_zipWith]
  rw [hA.2 _ (List.getElem_mem hi'.1), hB.2 _ (List.getElem_mem hi'.2)]
  omega

theorem rowsOf_eq {A : Mat α} {r c : Nat} (h : IsMat A r c) : rowsOf A = r := h.1

/-- Rows of a mapped array: `getD` commutes with the outer map. -/
theorem getD_map_out (f : α → α) (A : Mat α) (i : Nat) :
    (A.map (List.map f)).getD i [] = List.map f (A.getD i []) := by
  rcases Nat.lt_or_ge i A.length with h | h
  · rw [List.getD_eq_getElem _ _ (by simpa using h), List.getElem_map,
      List.getD_eq_getElem _ _ h]
  · rw [List.getD_eq_default _ _ (by simpa using h),
      List.getD_eq_default _ _ h]
    rfl

/-- Entry of a mapped row, for a map fixing zero. -/
theorem getD_map_zero [Zero α] {f : α → α} (hf : f 0 = 0) (l : List α)
    (j : Nat) : (l.map f).getD j 0 = f (l.getD j 0) := by
  rcases Nat.lt_or_ge j l.length with h | h
  · rw [List.getD_eq_getElem _ _ (by simpa using h), List.getElem_map,
      List.getD_eq_getElem _ _ h]
  · rw [List.getD_eq_default _ _ (by simpa using h),
      List.getD_eq_default _ _ h, hf]

/-- Entry of a mapped row, inside the bounds of the row. -/
theorem getD_map_lt [Zero α] (f : α → α) {l : List α} {j : Nat}
    (h : j < l.length) : (l.map f).getD j 0 = f (l.getD j 0) := by
  rw [List.getD_eq_getElem _ _ (by simpa using h), List.getElem_map,
    List.getD_eq_getElem _ _ h]

/-- Rows of an elementwise combination: `getD` commutes with the outer zip. -/
theorem getD_zip_out (f : α → α → α) (A B : Mat α) (i : Nat) :
    (List.zipWith (List.zipWith f) A B).getD i []
      = List.zipWith f (A.getD i []) (B.getD i []) := by
  rcases Nat.lt_or_ge i (List.zipWith (List.zipWith f) A B).length with h | h
  · have h' := h
    rw [List.length_zipWith] at h'
    rw [List.getD_eq_getElem _ _ h, List.getElem_zipWith,
      List.getD_eq_getElem _ _ (by omega : i < A.length),
      List.getD_eq_getElem _ _ (by omega : i < B.length)]
  · rw [List.getD_eq_default _ _ h]
    rw [List.length_zipWith] at h
    rcases Nat.lt_or_ge i A.length with h1 | h1
    · rw [List.getD_eq_default _ _ (by omega : B.length ≤ i)]
      simp
    · rw [List.getD_eq_default _ _ h1]
      simp

/-- Entry of a zipped row, inside the bounds of both rows. -/
theorem getD_zip_lt [Zero α] (f : α → α → α) {u v : List α} {j : Nat}
    (hu : j < u.length) (hv : j < v.length) :
    (List.zipWith f u v).getD j 0 = f (u.getD j 0) (v.getD j 0) := by
  rw [List.getD_eq_getElem _ _ (by rw [List.length_zipWith]; omega),
    List.getElem_zipWith, List.getD_eq_getElem _ _ hu,
    List.getD_eq_getElem _ _ hv]

/-- Entry of an elementwise map, inside the bounds of the array. -/
theorem entry_emap [Zero α] (f : α → α) {A : Mat α} {r c i j : Nat}
    (h : IsMat A r c) (hi : i < r) (hj : j < c) :
    entry (emap f A) i j = f (entry A i j) := by
  have hi' : i < A.length := h.1 ▸ hi
  have hj' : j < (A.getD i []).length := by
    rw [List.getD_eq_getElem _ _ hi', h.2 _ (List.getElem_mem hi')]
    exact hj
  unfold entry emap
  rw [getD_map_out, getD_map_lt _ hj']

/-- Entry of an elementwise map, unconditionally, for a map fixing zero. -/
theorem entry_emap_zero [Zero α] {f : α → α} (hf : f 0 = 0) (A : Mat α)
    (i j : Nat) : entry (emap f A) i j = f (entry A i j) := by
  unfold entry emap
  rw [getD_map_out, getD_map_zero hf]

/-- Entry of an elementwise combination, inside the bounds of the arrays. -/
theorem entry_ezip [Zero α] (f : α → α → α) {A B : Mat α} {r c i j : Nat}
    (hA : IsMat A r c) (hB : IsMat B r c) (hi : i < r) (hj : j < c) :
    entry (ezip f A B) i j = f (entry A i j) (entry B i j) := by
  have hiA : i < A.length := hA.1 ▸ hi
  have hiB : i < B.length := hB.1 ▸ hi
  have hjA : j < (A.getD i []).length := by
    rw [List.getD_eq_getElem _ _ hiA, hA.2 _ (List.getElem_mem hiA)]
    exact hj
  have hjB : j < (B.getD i []).length := by
    rw [List.getD_eq_getElem _ _ hiB, hB.2 _ (List.getElem_mem hiB)]
    exact hj
  unfold entry ezip
  rw [getD_zip_out, getD_zip_lt _ hjA hjB]

/-- Combining an elementwise image with the array itself is an elementwise map. -/
theorem ezip_emap_id (f : α → α → α) (g : α → α) (x : Mat α) :
    ezip f (emap g x) x = emap (fun t => f (g t) t) x := by
  simp [ezip, emap, List.zipWith_map_left, List.zipWith_same]

/-- Combining two elementwise images of the same array is an elementwise map. -/
theorem ezip_emap_emap (f : α → α → α) (g h : α → α) (x : Mat α) :
    ezip f (emap g x) (emap h x) = emap (fun t => f (g t) (h t)) x := by
  simp [ezip, emap, List.zipWith_map_left, List.zipWith_map_right,
    List.zipWith_same]

/-- Composition of elementwise maps. -/
theorem emap_emap (g h : α → α) (x : Mat α) :
    emap h (emap g x) = emap (fun t => h (g t)) x := by
  simp [emap, List.map_map]

/-! Driver composition lemmas. -/

theorem netForward_append (e : F → F) (ls₁ ls₂ : List (Layer F)) (x : Mat F) :
    netForward e (ls₁ ++ ls₂) x
      = ((netForward e ls₁ x).1
            ++ (netForward e ls₂ (netForward e ls₁ x).2).1,
          (netForward e ls₂ (netForward e ls₁ x).2).2) := by
  induction ls₁ generalizing x with
  | nil => simp [netForward]
  | cons l ls ih => simp [netForward, ih]

theorem netBackward_append (e : F → F) (ls₁ ls₂ : List (Layer F)) (g : Mat F) :
    netBackward e (ls₁ ++ ls₂) g
      = (netBackward e ls₂ g).bind fun q =>
          (netBackward e ls₁ q.2).map fun p => (p.1 ++ q.1, p.2) := by
  induction ls₁ with
  | nil =>
      rw [List.nil_append]
      cases h : netBackward e ls₂ g <;> simp [netBackward, h]
  | cons l ls ih =>
      rw [List.cons_append]
      show (netBackward e (ls ++ ls₂) g).bind _ = _
      rw [ih]
      cases h2 : netBackward e ls₂ g with
      | none => rfl
      | some q2 =>
          cases h1 : netBackward e ls q2.2 with
          | none => simp [netBackward, h1]
          | some q =>
              cases h0 : layerBackward e l q.2 with
              | none => simp [netBackward, h1, h0]
              | some pq => simp [netBackward, h1, h0]

/-! Claim theorems. -/

/-- C1, counterexample: the claim that the propagated gradient is computed
from the weights as they were at forward time is false.  With initial
weights `[[1]]`, stored input `[[1]]`, weights overwritten to `[[2]]`
between forward and backward, and seed gradient `[[1]]`, backward returns
`[[2]]`, not `cum_grad · weightsᵗ = [[1]]` for the forward-time weights. -/
theorem claim_c1_counterexample :
    ¬ (((((⟨[[(1:ℚ)]], [0], none, none, none⟩ : LinearLayer ℚ).forward_pass
          [[1]] true).1.setWeights [[2]]).backward_pass [[1]]).map Prod.snd
      = some (matMul [[1]] (transposeM [[(1:ℚ)]]))) := by
  norm_num [LinearLayer.forward_pass, LinearLayer.setWeights,
    LinearLayer.backward_pass, matMul, transposeM, colsOf, dotL,
    List.range_succ]

/-- C1, amended: the Dense backward pass copies the weight matrix as it is
at the time of the backward call, so a caller that mutates `weights` between
forward and backward obtains the propagated gradient `cum_grad · w'ᵗ`
computed from the mutated weights `w'`, not from the forward-time weights. -/
theorem claim_c1_amended (l : LinearLayer ℚ) (x w' g : Mat ℚ) (t : Bool) :
    ((((l.forward_pass x t).1.setWeights w').backward_pass g).map Prod.snd)
      = some (matMul g (transposeM w')) := rfl

/-- C5: ReLU forward returns the entry where it is positive and `0`
otherwise, the local derivative is `1` where the stored input is strictly
positive and `0` otherwise, at an input entry exactly `0` both are `0`, and
backward after a forward on `x` returns `cum_grad` times the derivative of
the stored input `x`. -/
theorem claim_c5_relu (l : ReLU ℚ) (x g : Mat ℚ) (i j : Nat) :
    entry ((l.forward_pass x).2) i j
        = (if 0 < entry x i j then entry x i j else 0)
      ∧ entry (ReLU.gradient x) i j = (if 0 < entry x i j then 1 else 0)
      ∧ (entry x i j = 0 → entry ((l.forward_pass x).2) i j = 0
          ∧ entry (ReLU.gradient x) i j = 0)
      ∧ (l.forward_pass x).1.backward_pass g
          = some (⟨some x, some (ReLU.gradient x)⟩, emul g (ReLU.gradient x)) := by
  have hfwd : (l.forward_pass x).2
      = emap (fun t => (if 0 < t then (1:ℚ) else 0) * t) x := by
    show emul (reluMask x) x = _
    rw [reluMask, emul, ezip_emap_id]
  have h1 : entry ((l.forward_pass x).2) i j
      = (if 0 < entry x i j then entry x i j else 0) := by
    rw [hfwd, entry_emap_zero (by norm_num)]
    by_cases h : 0 < entry x i j <;> simp [h]
  have h2 : entry (ReLU.gradient x) i j
      = (if 0 < entry x i j then 1 else 0) := by
    rw [ReLU.gradient, reluMask, entry_emap_zero (by norm_num)]
  exact ⟨h1, h2,
    fun h0 => ⟨by rw [h1, h0]; norm_num, by rw [h2, h0]; norm_num⟩, rfl⟩

/-- C5, witness: the boundary entry `0` evaluated concretely. -/
theorem claim_c5_witness :
    entry (((⟨none, none⟩ : ReLU ℚ).forward_pass [[0]]).2) 0 0
        = (if 0 < entry [[(0:ℚ)]] 0 0 then entry [[(0:ℚ)]] 0 0 else 0)
      ∧ entry (ReLU.gradient [[(0:ℚ)]]) 0 0
        = (if 0 < entry [[(0:ℚ)]] 0 0 then 1 else 0)
      ∧ (entry [[(0:ℚ)]] 0 0 = 0
          → entry (((⟨none, none⟩ : ReLU ℚ).forward_pass [[0]]).2) 0 0 = 0
            ∧ entry (ReLU.gradient [[(0:ℚ)]]) 0 0 = 0)
      ∧ ((⟨none, none⟩ : ReLU ℚ).forward_pass [[0]]).1.backward_pass [[1]]
        = some (⟨some [[0]], some (ReLU.gradient [[0]])⟩,
            emul [[1]] (ReLU.gradient [[0]])) :=
  claim_c5_relu ⟨none, none⟩ [[0]] [[1]] 0 0

/-- C6: Sigmoid forward returns `1 / (1 + exp (-x))` elementwise, and
backward after a forward on `x` returns `cum_grad` times
`sigmoid x * (1 - sigmoid x)`, recomputed elementwise from the stored
input `x`. -/
theorem claim_c6_sigmoid (s : Sigmoid ℝ) (x g : Mat ℝ) :
    (Sigmoid.forward_pass Real.exp s x).2
        = emap (fun t => 1 / (1 + Real.exp (-t))) x
      ∧ Sigmoid.backward_pass Real.exp (Sigmoid.forward_pass Real.exp s x).1 g
        = some (⟨some x, some (Sigmoid.gradient Real.exp x)⟩,
            emul g (emap (fun t => sigmoidFn Real.exp t
              * (1 - sigmoidFn Real.exp t)) x)) := by
  have hgrad : Sigmoid.gradient Real.exp x
      = emap (fun t => sigmoidFn Real.exp t * (1 - sigmoidFn Real.exp t)) x := by
    rw [Sigmoid.gradient, Sigmoid.sigmoidM, emap_emap, emul, ezip_emap_emap]
  refine ⟨rfl, ?_⟩
  rw [← hgrad]
  rfl

/-- C7: every entry of the Sigmoid forward output is strictly between `0`
and `1`. -/
theorem claim_c7_sigmoid_range (s : Sigmoid ℝ) (x : Mat ℝ) (row : List ℝ)
    (hrow : row ∈ (Sigmoid.forward_pass Real.exp s x).2) (v : ℝ)
    (hv : v ∈ row) : 0 < v ∧ v < 1 := by
  have hout : (Sigmoid.forward_pass Real.exp s x).2
      = emap (sigmoidFn Real.exp) x := rfl
  rw [hout, emap] at hrow
  obtain ⟨r0, _, hr0⟩ := List.mem_map.mp hrow
  rw [← hr0] at hv
  obtain ⟨t, _, ht⟩ := List.mem_map.mp hv
  rw [← ht, sigmoidFn]
  have he : 0 < Real.exp (-t) := Real.exp_pos _
  constructor
  · exact div_pos one_pos (by linarith)
  · rw [div_lt_one (by linarith)]
    linarith

/-- C7, witness: the sigmoid output entry at input `0` lies in `(0, 1)`. -/
theorem claim_c7_witness :
    0 < sigmoidFn Real.exp 0 ∧ sigmoidFn Real.exp 0 < 1 :=
  claim_c7_sigmoid_range ⟨none, none⟩ [[0]]
    (List.map (sigmoidFn Real.exp) [0])
    (by simp [Sigmoid.forward_pass, Sigmoid.sigmoidM, emap])
    (sigmoidFn Real.exp 0) (by simp)

/-- C9: the Dense forward pass returns `x · weights + bias`, a repeated call
on the same input returns the same output, and the resulting layer state
differs from the original only in the `input` field, which now stores `x`. -/
theorem claim_c9_forward_pure (l : LinearLayer ℚ) (x : Mat ℚ) (t₁ t₂ : Bool) :
    (l.forward_pass x t₁).2 = addBias (matMul x l.weights) l.bias
      ∧ ((l.forward_pass x t₁).1.forward_pass x t₂).2 = (l.forward_pass x t₁).2
      ∧ (l.forward_pass x t₁).1
        = ⟨l.weights, l.bias, some x, l.grad_weights, l.grad_bias⟩ :=
  ⟨rfl, rfl, rfl⟩

/-- C10: the `training` argument of the Dense forward pass has no effect:
any call is identical to the call with the default `training = True`. -/
theorem claim_c10_training_irrelevant (l : LinearLayer ℚ) (x : Mat ℚ)
    (t : Bool) : l.forward_pass x t = l.forward_pass x true := rfl

/-- C3: the network forward pass feeds layers in sequence order (the layers
after a split consume the output of the layers before it, and the final
output is the output of the last block), and the backward pass feeds layers
in reverse sequence order (the later layers are processed first, and their
propagated gradient feeds the earlier layers). -/
theorem claim_c3_driver_order (e : F → F) (ls₁ ls₂ : List (Layer F))
    (x g : Mat F) :
    netForward e (ls₁ ++ ls₂) x
        = ((netForward e ls₁ x).1
              ++ (netForward e ls₂ (netForward e ls₁ x).2).1,
            (netForward e ls₂ (netForward e ls₁ x).2).2)
      ∧ netBackward e (ls₁ ++ ls₂) g
        = (netBackward e ls₂ g).bind fun q =>
            (netBackward e ls₁ q.2).map fun p => (p.1 ++ q.1, p.2) :=
  ⟨netForward_append e ls₁ ls₂ x, netBackward_append e ls₁ ls₂ g⟩

/-- C2: on a stored input of shape `[b, n]` and a cumulative gradient of
shape `[b, m]`, with weights of shape `[n, m]`, the Dense backward pass sets
`grad_weights = inputᵗ · cum_grad` of shape `[n, m]`, sets
`grad_bias = sum(cum_grad, axis=0)` of shape `[1, m]`, and returns
`cum_grad · weightsᵗ` of shape `[b, n]`. -/
theorem claim_c2_backward_values (l : LinearLayer ℚ) (x g : Mat ℚ)
    (b n m : Nat) (hin : l.input = some x) (hx : IsMat x b n)
    (hg : IsMat g b m) (hw : IsMat l.weights n m) (hb : 0 < b) (hn : 0 < n)
    (hm : 0 < m) :
    l.backward_pass g
        = some (⟨l.weights, l.bias, l.input,
            some (matMul (transposeM x) g), some (sumRows g)⟩,
          matMul g (transposeM l.weights))
      ∧ IsMat (matMul (transposeM x) g) n m
      ∧ IsMat (sumRows g) 1 m
      ∧ IsMat (matMul g (transposeM l.weights)) b n := by
  refine ⟨?_, isMat_matMul (isMat_transposeM hx hb) hg hb,
    isMat_sumRows hg hb, isMat_matMul hg (isMat_transposeM hw hn) hm⟩
  unfold LinearLayer.backward_pass
  rw [hin]

/-- C2, witness: a `1 × 1` Dense layer with stored input evaluated
concretely. -/
theorem claim_c2_witness :
    (⟨[[1]], [0], some [[2]], none, none⟩ : LinearLayer ℚ).backward_pass [[3]]
        = some (⟨[[1]], [0], some [[2]],
            some (matMul (transposeM [[2]]) [[3]]), some (sumRows [[3]])⟩,
          matMul [[3]] (transposeM [[1]]))
      ∧ IsMat (matMul (transposeM [[(2:ℚ)]]) [[3]]) 1 1
      ∧ IsMat (sumRows [[(3:ℚ)]]) 1 1
      ∧ IsMat (matMul [[(3:ℚ)]] (transposeM [[1]])) 1 1 :=
  claim_c2_backward_values ⟨[[1]], [0], some [[2]], none, none⟩ [[2]] [[3]]
    1 1 1 rfl (by decide) (by decide) (by decide) (by decide) (by decide)
    (by decide)

/-- C4: the Dense backward pass leaves `weights` and `bias` unchanged, and
the `grad_weights` it stores has the same shape `[n, m]` as the weights. -/
theorem claim_c4_frame (l : LinearLayer ℚ) (x g : Mat ℚ) (b n m : Nat)
    (hin : l.input = some x) (hx : IsMat x b n) (hg : IsMat g b m)
    (hw : IsMat l.weights n m) (hb : 0 < b) :
    ∃ l' r, l.backward_pass g = some (l', r)
      ∧ l'.weights = l.weights ∧ l'.bias = l.bias
      ∧ ∃ gw, l'.grad_weights = some gw ∧ IsMat gw n m := by
  refine ⟨⟨l.weights, l.bias, l.input, some (matMul (transposeM x) g),
    some (sumRows g)⟩, matMul g (transposeM l.weights), ?_, rfl, rfl,
    matMul (transposeM x) g, rfl,
    isMat_matMul (isMat_transposeM hx hb) hg hb⟩
  unfold LinearLayer.backward_pass
  rw [hin]

/-- C4, witness: frame conditions of backward evaluated on a concrete
`1 × 1` Dense layer. -/
theorem claim_c4_witness :
    ∃ l' r,
      (⟨[[5]], [1], some [[1]], none, none⟩ : LinearLayer ℚ).backward_pass
          [[2]] = some (l', r)
        ∧ l'.weights = [[5]] ∧ l'.bias = [1]
        ∧ ∃ gw, l'.grad_weights = some gw ∧ IsMat gw 1 1 :=
  claim_c4_frame ⟨[[5]], [1], some [[1]], none, none⟩ [[1]] [[2]] 1 1 1 rfl
    (by decide) (by decide) (by decide) (by decide)

/-- C8: each entry of the binary-cross-entropy seed gradient equals
`(-(y/p) + (1-y)/(1-p))` for that example, divided by the batch size `b`,
the number of rows of the gradient array. -/
theorem claim_c8_seed (y p : Mat ℚ) (b m i j : Nat) (hy : IsMat y b m)
    (hp : IsMat p b m) (hi : i < b) (hj : j < m) :
    entry (seedGrad y p) i j
      = (-(entry y i j / entry p i j)
          + (1 - entry y i j) / (1 - entry p i j)) / (b : ℚ) := by
  have h1 : IsMat (ediv y p) b m := isMat_ezip hy hp
  have h2 : IsMat (emap Neg.neg (ediv y p)) b m := isMat_emap h1
  have h3 : IsMat (emap (fun t => 1 - t) y) b m := isMat_emap hy
  have h4 : IsMat (emap (fun t => 1 - t) p) b m := isMat_emap hp
  have h5 : IsMat (ediv (emap (fun t => 1 - t) y) (emap (fun t => 1 - t) p))
      b m := isMat_ezip h3 h4
  have h6 : IsMat (eadd (emap Neg.neg (ediv y p))
      (ediv (emap (fun t => 1 - t) y) (emap (fun t => 1 - t) p))) b m :=
    isMat_ezip h2 h5
  simp only [seedGrad]
  rw [rowsOf_eq h6, entry_emap _ h6 hi hj]
  unfold eadd ediv at h1 h2 h5 h6 ⊢
  rw [entry_ezip _ h2 h5 hi hj, entry_emap _ h1 hi hj,
    entry_ezip _ hy hp hi hj, entry_ezip _ h3 h4 hi hj,
    entry_emap _ hy hi hj, entry_emap _ hp hi hj]

/-- C8, witness: the seed gradient of a single example with label `0` and
predicted probability `1/2` evaluated concretely. -/
theorem claim_c8_witness :
    entry (seedGrad ([[0]] : Mat ℚ) [[1/2]]) 0 0
      = (-(entry ([[0]] : Mat ℚ) 0 0 / entry ([[1/2]] : Mat ℚ) 0 0)
          + (1 - entry ([[0]] : Mat ℚ) 0 0)
            / (1 - entry ([[1/2]] : Mat ℚ) 0 0)) / ((1 : Nat) : ℚ) :=
  claim_c8_seed [[0]] [[1/2]] 1 1 0 0 (by decide) (by decide) (by decide)
    (by decide)

end BackpropSpec
